import Mathlib

/-!
Verification of the navigation-tree specification for `scripts/guides_master.py`.

The repository source is a single file of literal data: three nested
dictionary literals (`CV_GUIDES_MASTER`, `KT_GUIDES_MASTER`, `GUIDES_MASTER`)
describing a documentation navigation tree.  Each entry carries a `path`
and a `title`, optionally a `toc` flag and a `children` list.  The literal
for `CV_GUIDES_MASTER` is malformed: the comma between its second and third
child entries is missing (source lines 13-14), so the file does not parse.

This development embeds

* the built tree shape (`Node`) and the spec's operations `traverse` and
  `validate` (the source contains no code, only data, so these operations
  are modelled from the spec);
* the raw literal data (`Raw`), transcribed from the source text together
  with the presence or absence of the comma separator after each child
  entry, and a spec-modelled `build` step that fails on a missing
  separator;
* a reference-sharing model (`Store` of records addressed by id) in which
  cyclic structures are representable, used to verify that cycle detection
  in `validate` terminates and reports a cycle.
-/

/-- A node of the built navigation tree: `path`, `title`, optional `toc`
flag and optional ordered children list, exactly the shape of one
dictionary literal in `scripts/guides_master.py`. -/
inductive Node : Type where
  | mk (path title : String) (toc : Option Bool) (children : Option (List Node)) : Node

def Node.path : Node → String
  | .mk p _ _ _ => p

def Node.title : Node → String
  | .mk _ t _ _ => t

def Node.toc : Node → Option Bool
  | .mk _ _ o _ => o

def Node.children : Node → Option (List Node)
  | .mk _ _ _ c => c

/-- The children of a node, with an absent `children` field read as the
empty list. -/
def Node.childList : Node → List Node
  | .mk _ _ _ none => []
  | .mk _ _ _ (some cs) => cs

mutual

def nodeDecEq : (a b : Node) → Decidable (a = b)
  | .mk p1 t1 o1 none, .mk p2 t2 o2 none =>
    if h : p1 = p2 ∧ t1 = t2 ∧ o1 = o2 then
      .isTrue (by obtain ⟨h1, h2, h3⟩ := h; subst h1; subst h2; subst h3; rfl)
    else .isFalse (by intro hc; cases hc; exact h ⟨rfl, rfl, rfl⟩)
  | .mk p1 t1 o1 (some cs1), .mk p2 t2 o2 (some cs2) =>
    match nodeListDecEq cs1 cs2 with
    | .isTrue hcs =>
      if h : p1 = p2 ∧ t1 = t2 ∧ o1 = o2 then
        .isTrue (by obtain ⟨h1, h2, h3⟩ := h; subst h1; subst h2; subst h3; subst hcs; rfl)
      else .isFalse (by intro hc; cases hc; exact h ⟨rfl, rfl, rfl⟩)
    | .isFalse hcs => .isFalse (by intro hc; cases hc; exact hcs rfl)
  | .mk _ _ _ none, .mk _ _ _ (some _) => .isFalse (by intro hc; cases hc)
  | .mk _ _ _ (some _), .mk _ _ _ none => .isFalse (by intro hc; cases hc)

def nodeListDecEq : (a b : List Node) → Decidable (a = b)
  | [], [] => .isTrue rfl
  | a :: as, b :: bs =>
    match nodeDecEq a b, nodeListDecEq as bs with
    | .isTrue h1, .isTrue h2 => .isTrue (by rw [h1, h2])
    | .isFalse h1, _ => .isFalse (by intro hc; injection hc; contradiction)
    | _, .isFalse h2 => .isFalse (by intro hc; injection hc; contradiction)
  | [], _ :: _ => .isFalse (by intro hc; cases hc)
  | _ :: _, [] => .isFalse (by intro hc; cases hc)

end

instance : DecidableEq Node := nodeDecEq

mutual

/-- Modelled from the spec: `traverse(root, visitFn)` produces the sequence
of (Node, depth) pairs in depth-first, children-in-order (pre-order)
traversal; `traverseAux n d` is the traversal of the subtree at `n`, `n`
itself being at depth `d`. -/
def traverseAux : Node → Nat → List (Node × Nat)
  | .mk p t o none, d => [(.mk p t o none, d)]
  | .mk p t o (some cs), d => (.mk p t o (some cs), d) :: traverseList cs (d + 1)

/-- Modelled from the spec: traversal of a children list, all at depth `d`,
children in stored order. -/
def traverseList : List Node → Nat → List (Node × Nat)
  | [], _ => []
  | c :: rest, d => traverseAux c d ++ traverseList rest d

end

/-- Modelled from the spec: `traverse(root)`, the root at depth 0. -/
def traverse (root : Node) : List (Node × Nat) := traverseAux root 0

mutual

/-- The number of occurrences of `m` in the subtree rooted at `n`
(structural multiplicity of a node value in the tree). -/
def occCount (m : Node) : Node → Nat
  | .mk p t o none => if m = Node.mk p t o none then 1 else 0
  | .mk p t o (some cs) => (if m = Node.mk p t o (some cs) then 1 else 0) + occList m cs

def occList (m : Node) : List Node → Nat
  | [] => 0
  | c :: rest => occCount m c + occList m rest

end

/-- Severity of a validation finding. -/
inductive Severity : Type where
  | warning : Severity
  | fatal : Severity
deriving DecidableEq

/-- A validation finding, as described in the spec's error-handling design:
missing (empty) `path` or `title`, an empty `children` list, or a
duplicated sibling `path`. -/
inductive Finding : Type where
  | missingPath (title : String) : Finding
  | missingTitle (path : String) : Finding
  | emptyChildren (path : String) : Finding
  | duplicatePath (path : String) : Finding
deriving DecidableEq

/-- Modelled from the spec: severity of each finding kind — a duplicate
sibling path is a warning, everything else is fatal. -/
def Finding.severity : Finding → Severity
  | .duplicatePath _ => .warning
  | _ => .fatal

/-- The `path` values of a node's children, in stored order. -/
def childPaths (n : Node) : List String := (Node.childList n).map Node.path

/-- The sibling `path` values that occur more than once among `n`'s
children, each listed once. -/
def dupSibPaths (n : Node) : List String :=
  (childPaths n).dedup.filter (fun p => 2 ≤ (childPaths n).count p)

/-- Modelled from the spec: the findings contributed by one node — empty
`path`, empty `title`, present-but-empty `children`, and one
duplicate-path finding per duplicated sibling path. -/
def nodeFindings (n : Node) : List Finding :=
  (if n.path = "" then [Finding.missingPath n.title] else []) ++
  (if n.title = "" then [Finding.missingTitle n.path] else []) ++
  (if n.children = some [] then [Finding.emptyChildren n.path] else []) ++
  (dupSibPaths n).map Finding.duplicatePath

/-- Modelled from the spec: `validate(root)` collects the findings of every
node in one traversal pass, never stopping at the first. -/
def validate (root : Node) : List Finding :=
  (traverse root).flatMap (fun x => nodeFindings x.1)

/-- The local well-formedness check for one node: non-empty `path` and
`title`, no present-but-empty `children`, sibling paths distinct. -/
def localOk (n : Node) : Bool :=
  decide (n.path ≠ "") && decide (n.title ≠ "") &&
  decide (n.children ≠ some []) && decide (childPaths n).Nodup

/-- A tree is well-formed when every node of it passes the local check
(acyclicity is automatic for these inductive trees). -/
def wellFormedB (root : Node) : Bool :=
  (traverse root).all (fun x => localOk x.1)

/-- A raw node literal as it stands in the source text of
`scripts/guides_master.py`: the four fields plus, for a node with a
`children` list, the list `seps` recording for each child entry whether a
comma separator follows it in the source text. -/
inductive Raw : Type where
  | mk (path title : String) (toc : Option Bool)
       (children : Option (List Raw)) (seps : List Bool) : Raw

def Raw.path : Raw → String
  | .mk p _ _ _ _ => p

def Raw.title : Raw → String
  | .mk _ t _ _ _ => t

def Raw.toc : Raw → Option Bool
  | .mk _ _ o _ _ => o

def Raw.children : Raw → Option (List Raw)
  | .mk _ _ _ c _ => c

/-- The child literals of a raw node, with an absent `children` field read
as the empty list. -/
def Raw.childList : Raw → List Raw
  | .mk _ _ _ none _ => []
  | .mk _ _ _ (some cs) _ => cs

mutual

/-- All node literals of a raw subtree, in pre-order (the node itself
followed by the nodes of its children, at every nesting depth). -/
def allRawNodes : Raw → List Raw
  | .mk p t o none s => [Raw.mk p t o none s]
  | .mk p t o (some cs) s => Raw.mk p t o (some cs) s :: allRawList cs

def allRawList : List Raw → List Raw
  | [] => []
  | c :: rest => allRawNodes c ++ allRawList rest

end

mutual

/-- The number of node literals in a raw subtree. -/
def rawSize : Raw → Nat
  | .mk _ _ _ none _ => 1
  | .mk _ _ _ (some cs) _ => 1 + rawSizeList cs

def rawSizeList : List Raw → Nat
  | [] => 0
  | c :: rest => rawSize c + rawSizeList rest

end

/-- The strict descendants of a raw node: every node literal lying in one
of its child subtrees. -/
def strictDescRaw (r : Raw) : List Raw := (Raw.childList r).flatMap allRawNodes

/-- Whether the comma separators of a children list are well formed, as
Python's grammar demands: every entry except the last must be followed by
a comma, and a trailing comma after the last entry is optional. -/
def sepsOk : List Raw → List Bool → Bool
  | [], _ => true
  | [_], _ => true
  | _ :: c2 :: rest, s :: srest => s && sepsOk (c2 :: rest) srest
  | _ :: _ :: _, [] => false

/-- A construction-time error: some children list of the node with the
given `path` is missing the separator between two sibling entries. -/
inductive BuildError : Type where
  | missingSeparator (parentPath : String) : BuildError
deriving DecidableEq

mutual

/-- Modelled from the spec: `build()` turns the literal data into the root
`Node`, failing fast with a construction-time error when the literal is
malformed (a missing separator between sibling entries), never repairing
it. -/
def build : Raw → Except BuildError Node
  | .mk p t o none _ => .ok (Node.mk p t o none)
  | .mk p t o (some cs) seps =>
    if sepsOk cs seps then
      match buildList cs with
      | .ok ns => .ok (Node.mk p t o (some ns))
      | .error e => .error e
    else .error (.missingSeparator p)

/-- Modelled from the spec: build every literal of a children list in
order, propagating the first construction-time error. -/
def buildList : List Raw → Except BuildError (List Node)
  | [] => .ok []
  | c :: rest =>
    match build c, buildList rest with
    | .ok n, .ok ns => .ok (n :: ns)
    | .error e, _ => .error e
    | .ok _, .error e => .error e

end

/-- `CV_GUIDES_MASTER` transcribed from source lines 1-19.  The comma
after the first child entry is present (line 9), the comma after the
second entry is missing (lines 13-14), and no comma follows the last
entry (line 17): separator flags `[true, false, false]`. -/
def CV_GUIDES_MASTER_RAW : Raw :=
  .mk "keras_cv/" "KerasCV: Computer Vision Extensions for Keras" (some true)
    (some
      [ .mk "cut_mix_mix_up_and_rand_augment"
          "CutMix, MixUp, and RandAugment image augmentation with KerasCV" none none [],
        .mk "custom_image_augmentations"
          "Custom Image Augmentations with BaseImageAugmentationLayer" none none [],
        .mk "keras_cv_coco_metrics" "Using KerasCV COCO Metrics" none none [] ])
    [true, false, false]

/-- `KT_GUIDES_MASTER` transcribed from source lines 21-47.  Every child
entry, the last included, carries a trailing comma. -/
def KT_GUIDES_MASTER_RAW : Raw :=
  .mk "keras_tuner/" "Hyperparameter Tuning" (some true)
    (some
      [ .mk "getting_started" "Getting started with KerasTuner" none none [],
        .mk "distributed_tuning" "Distributed hyperparameter tuning with KerasTuner" none none [],
        .mk "custom_tuner" "Tune hyperparameters in your custom training loop" none none [],
        .mk "visualize_tuning" "Visualize the hyperparameter tuning process" none none [],
        .mk "tailor_the_search_space" "Tailor the search space" none none [] ])
    [true, true, true, true, true]

/-- `GUIDES_MASTER` transcribed from source lines 49-130.  The fourteen
leaf entries each carry a trailing comma, `KT_GUIDES_MASTER` is followed
by a comma (line 126), and `CV_GUIDES_MASTER`, the last entry, is not
(line 127).  The `KT_GUIDES_MASTER` and `CV_GUIDES_MASTER` subtrees are
embedded by reference in the source; here the same terms are embedded. -/
def GUIDES_MASTER_RAW : Raw :=
  .mk "guides/" "Developer guides" (some true)
    (some
      [ .mk "functional_api" "The Functional API" none none [],
        .mk "sequential_model" "The Sequential model" none none [],
        .mk "making_new_layers_and_models_via_subclassing"
          "Making new layers & models via subclassing" none none [],
        .mk "training_with_built_in_methods"
          "Training & evaluation with the built-in methods" none none [],
        .mk "customizing_what_happens_in_fit"
          "Customizing what happens in `fit()`" none none [],
        .mk "writing_a_training_loop_from_scratch"
          "Writing a training loop from scratch" none none [],
        .mk "serialization_and_saving" "Serialization & saving" none none [],
        .mk "writing_your_own_callbacks" "Writing your own callbacks" none none [],
        .mk "preprocessing_layers" "Working with preprocessing layers" none none [],
        .mk "working_with_rnns" "Working with recurrent neural networks" none none [],
        .mk "understanding_masking_and_padding"
          "Understanding masking & padding" none none [],
        .mk "distributed_training" "Multi-GPU & distributed training" none none [],
        .mk "transfer_learning" "Transfer learning & fine-tuning" none none [],
        .mk "training_keras_models_on_cloud"
          "Training Keras models with TensorFlow Cloud" none none [],
        KT_GUIDES_MASTER_RAW,
        CV_GUIDES_MASTER_RAW ])
    [true, true, true, true, true, true, true, true,
     true, true, true, true, true, true, true, false]

/-- Every node literal of the source file, each of the three top-level
constants expanded at every nesting depth. -/
def allSrcNodes : List Raw :=
  allRawNodes GUIDES_MASTER_RAW ++ allRawNodes KT_GUIDES_MASTER_RAW ++
    allRawNodes CV_GUIDES_MASTER_RAW

/-- Whether a path string ends with the character `/`. -/
def endsWithSlash (s : String) : Bool := s.data.getLast? == some '/'

/-- Leaf `{path:"getting_started", title:"Getting started"}` of the spec's
concrete traversal scenario. -/
def EX_GETTING_STARTED : Node := .mk "getting_started" "Getting started" none none

/-- Leaf `{path:"functional_api", title:"The Functional API"}` of the
spec's concrete traversal scenario. -/
def EX_FUNCTIONAL_API : Node := .mk "functional_api" "The Functional API" none none

/-- Section `{path:"keras_tuner/", title:"Hyperparameter Tuning", toc:true}`
of the spec's concrete traversal scenario. -/
def EX_KERAS_TUNER : Node :=
  .mk "keras_tuner/" "Hyperparameter Tuning" (some true) (some [EX_GETTING_STARTED])

/-- Root `{path:"guides/", title:"Developer guides"}` of the spec's
concrete traversal scenario. -/
def EX_ROOT : Node :=
  .mk "guides/" "Developer guides" none (some [EX_FUNCTIONAL_API, EX_KERAS_TUNER])

/-- A tree whose root has exactly two children sharing the sibling path
`"foo"`, the spec's concrete duplicate-path scenario. -/
def dupSpecimen : Node :=
  .mk "listing/" "Listing" none
    (some [.mk "foo" "First entry" none none, .mk "foo" "Second entry" none none])

/-- A node record in the reference-sharing model: the same fields as
`Node`, but children are ids of records in a store, so shared and cyclic
structures are representable, as they are for Python dictionaries held by
reference. -/
structure NodeRec : Type where
  path : String
  title : String
  toc : Option Bool
  children : Option (List Nat)
deriving DecidableEq

/-- A store of node records addressed by id. -/
abbrev Store := List (Nat × NodeRec)

/-- The ids present in a store. -/
def storeIds (s : Store) : List Nat := s.map Prod.fst

/-- The child ids of a record, with an absent `children` field read as the
empty list. -/
def childIdsOfRec (r : NodeRec) : List Nat :=
  match r.children with
  | none => []
  | some cs => cs

/-- The child ids of the record stored under `n`, empty when `n` is not in
the store. -/
def childIdsOf (s : Store) (n : Nat) : List Nat :=
  match List.lookup n s with
  | none => []
  | some r => childIdsOfRec r

/-- The `path` values of the records stored under the given ids. -/
def sibPathsOf (s : Store) (cs : List Nat) : List String :=
  cs.filterMap (fun c => (List.lookup c s).map NodeRec.path)

/-- A validation finding of the reference-sharing model, referencing the
offending record by id. -/
inductive RefFinding : Type where
  | missingPath (id : Nat) : RefFinding
  | missingTitle (id : Nat) : RefFinding
  | emptyChildren (id : Nat) : RefFinding
  | cycleAt (id : Nat) : RefFinding
  | duplicatePath (id : Nat) (path : String) : RefFinding
deriving DecidableEq

/-- Modelled from the spec: the local findings of one stored record. -/
def recFindings (s : Store) (n : Nat) (r : NodeRec) : List RefFinding :=
  (if r.path = "" then [RefFinding.missingPath n] else []) ++
  (if r.title = "" then [RefFinding.missingTitle n] else []) ++
  (if r.children = some [] then [RefFinding.emptyChildren n] else []) ++
  ((sibPathsOf s (childIdsOfRec r)).dedup.filter
      (fun p => 2 ≤ (sibPathsOf s (childIdsOfRec r)).count p)).map
    (RefFinding.duplicatePath n)

/-- Modelled from the spec: depth-first validation visit in the
reference-sharing model.  `stack` holds the ids on the path from the root
to the current record; revisiting one of them is a cycle, reported as a
finding instead of being descended into, so the visit terminates on cyclic
structures.  `fuel` is a structural bound on the recursion depth. -/
def visitRef (s : Store) : Nat → List Nat → Nat → List RefFinding
  | 0, _, _ => []
  | fuel + 1, stack, n =>
    if n ∈ stack then [RefFinding.cycleAt n]
    else
      match List.lookup n s with
      | none => []
      | some r =>
        recFindings s n r ++ (childIdsOfRec r).flatMap (visitRef s fuel (n :: stack))

/-- Modelled from the spec: `validate(root)` in the reference-sharing
model.  The stack of a visit holds pairwise distinct stored ids, so depth
`|store| + 1` is never exhausted. -/
def validateRef (s : Store) (root : Nat) : List RefFinding :=
  visitRef s (s.length + 1) [] root

/-- Every child id referenced by a record of the store is itself stored —
true of any structure built from Python references. -/
def ClosedStore (s : Store) : Prop :=
  ∀ e ∈ s, ∀ c ∈ childIdsOfRec (Prod.snd e), c ∈ storeIds s

/-- `WalkTo s n l m`: starting at id `n`, following one child edge at a
time through the ids listed in `l`, one ends at id `m`. -/
inductive WalkTo (s : Store) : Nat → List Nat → Nat → Prop where
  | refl (n : Nat) : WalkTo s n [] n
  | step {n c m : Nat} {l : List Nat} (hc : c ∈ childIdsOf s n)
      (hw : WalkTo s c l m) : WalkTo s n (c :: l) m

/-- Id `x` is reachable from `root` (in zero or more steps). -/
def ReachableId (s : Store) (root x : Nat) : Prop := ∃ l, WalkTo s root l x

/-- Id `x` appears as its own descendant: a non-empty walk leads from `x`
back to `x`. -/
def SelfDescendant (s : Store) (x : Nat) : Prop :=
  ∃ l, l ≠ [] ∧ WalkTo s x l x

/-- A store holding a single self-referential record: its only node lists
itself among its children. -/
def cyclicStore : Store := [(0, ⟨"loop/", "Self loop", none, some [0]⟩)]

theorem traverseList_eq_flatMap (cs : List Node) (d : Nat) :
    traverseList cs d = cs.flatMap (fun c => traverseAux c d) := by
  induction cs with
  | nil => simp [traverseList]
  | cons c rest ih => simp [traverseList, ih]

theorem traverseAux_head_tail (n : Node) (d : Nat) :
    traverseAux n d = (n, d) :: traverseList (Node.childList n) (d + 1) := by
  cases n with
  | mk p t o c => cases c <;> simp [traverseAux, Node.childList, traverseList]

mutual

theorem count_fst_traverseAux (m : Node) : ∀ (n : Node) (d : Nat),
    ((traverseAux n d).map Prod.fst).count m = occCount m n
  | .mk p t o none, d => by
    rcases eq_or_ne m (Node.mk p t o none) with h | h
    · subst h; simp [traverseAux, occCount]
    · simp [traverseAux, occCount, List.count_cons, h, Ne.symm h]
  | .mk p t o (some cs), d => by
    rcases eq_or_ne m (Node.mk p t o (some cs)) with h | h
    · subst h
      simp [traverseAux, List.count_cons, occCount,
        count_fst_traverseList (Node.mk p t o (some cs)) cs (d + 1)]
      omega
    · simp [traverseAux, occCount, List.count_cons, h, Ne.symm h,
        count_fst_traverseList m cs (d + 1)]

theorem count_fst_traverseList (m : Node) : ∀ (cs : List Node) (d : Nat),
    ((traverseList cs d).map Prod.fst).count m = occList m cs
  | [], _ => by simp [traverseList, occList]
  | c :: rest, d => by
    simp [traverseList, occList, List.count_append,
      count_fst_traverseAux m c d, count_fst_traverseList m rest d]

end

theorem nodeFindings_eq_nil_of_localOk {n : Node} (h : localOk n = true) :
    nodeFindings n = [] := by
  simp only [localOk, Bool.and_eq_true, decide_eq_true_eq] at h
  obtain ⟨⟨⟨h1, h2⟩, h3⟩, h4⟩ := h
  have hd : dupSibPaths n = [] := by
    simp only [dupSibPaths, List.filter_eq_nil_iff, decide_eq_true_eq]
    intro p _
    have := List.nodup_iff_count_le_one.1 h4 p
    omega
  simp [nodeFindings, h1, h2, h3, hd]

theorem count_flatMap_eq_sum {α β : Type} [BEq β] (l : List α) (f : α → List β) (b : β) :
    ((l.flatMap f).count b) = (l.map (fun x => (f x).count b)).sum := by
  induction l with
  | nil => simp
  | cons a rest ih => simp [List.count_append, ih]

theorem sum_map_ite_eq_countP {α : Type} (l : List α) (P : α → Prop) [DecidablePred P] :
    (l.map (fun x => if P x then 1 else 0)).sum = l.countP (fun x => decide (P x)) := by
  induction l with
  | nil => simp
  | cons a rest ih =>
    by_cases h : P a <;> simp [List.countP_cons, ih, h, Nat.add_comm]

theorem count_nodeFindings_duplicate (n : Node) (p : String) :
    (nodeFindings n).count (Finding.duplicatePath p) =
      if 2 ≤ (childPaths n).count p then 1 else 0 := by
  have hinj : Function.Injective Finding.duplicatePath := fun a b h => by injection h
  have hD : ((dupSibPaths n).map Finding.duplicatePath).count (Finding.duplicatePath p) =
      (dupSibPaths n).count p := List.count_map_of_injective _ _ hinj _
  have hdup : (dupSibPaths n).count p = if 2 ≤ (childPaths n).count p then 1 else 0 := by
    by_cases h2 : 2 ≤ (childPaths n).count p
    · have hp : p ∈ childPaths n := List.count_pos_iff.1 (by omega)
      have hpd : p ∈ (childPaths n).dedup := List.mem_dedup.2 hp
      rw [dupSibPaths, List.count_filter (by simpa using h2),
        List.count_eq_one_of_mem (List.nodup_dedup _) hpd, if_pos h2]
    · have hnot : p ∉ dupSibPaths n := by
        simp only [dupSibPaths, List.mem_filter, decide_eq_true_eq]
        rintro ⟨-, hc⟩
        exact h2 hc
      rw [List.count_eq_zero.2 hnot, if_neg h2]
  simp only [nodeFindings, List.count_append, hD, hdup]
  have z1 : (if n.path = "" then [Finding.missingPath n.title] else []).count
      (Finding.duplicatePath p) = 0 := by
    split <;> simp
  have z2 : (if n.title = "" then [Finding.missingTitle n.path] else []).count
      (Finding.duplicatePath p) = 0 := by
    split <;> simp
  have z3 : (if n.children = some [] then [Finding.emptyChildren n.path] else []).count
      (Finding.duplicatePath p) = 0 := by
    split <;> simp
  omega

theorem count_validate_duplicate (root : Node) (p : String) :
    (validate root).count (Finding.duplicatePath p) =
      (traverse root).countP (fun x => 2 ≤ (childPaths x.1).count p) := by
  rw [validate, count_flatMap_eq_sum]
  have hmap : ((traverse root).map (fun x => (nodeFindings x.1).count (Finding.duplicatePath p)))
      = (traverse root).map (fun x => if 2 ≤ (childPaths x.1).count p then 1 else 0) := by
    simp only [count_nodeFindings_duplicate]
  rw [hmap, sum_map_ite_eq_countP]

mutual

theorem rawSize_le_of_mem_allRawNodes : ∀ (r x : Raw), x ∈ allRawNodes r → rawSize x ≤ rawSize r
  | .mk p t o none s, x => by
    intro hx
    simp only [allRawNodes, List.mem_singleton] at hx
    subst hx
    exact Nat.le_refl _
  | .mk p t o (some cs) s, x => by
    intro hx
    simp only [allRawNodes, List.mem_cons] at hx
    rcases hx with hx | hx
    · subst hx; exact Nat.le_refl _
    · have h := rawSize_le_of_mem_allRawList cs x hx
      simp only [rawSize]
      omega

theorem rawSize_le_of_mem_allRawList : ∀ (l : List Raw) (x : Raw), x ∈ allRawList l → rawSize x ≤ rawSizeList l
  | [], x => by intro hx; simp [allRawList] at hx
  | c :: rest, x => by
    intro hx
    simp only [allRawList, List.mem_append] at hx
    rcases hx with hx | hx
    · have h := rawSize_le_of_mem_allRawNodes c x hx
      simp only [rawSizeList]
      omega
    · have h := rawSize_le_of_mem_allRawList rest x hx
      simp only [rawSizeList]
      omega

end

theorem rawSize_le_of_mem (cs : List Raw) (c : Raw) (h : c ∈ cs) :
    rawSize c ≤ rawSizeList cs := by
  induction cs with
  | nil => cases h
  | cons a rest ih =>
    rcases List.mem_cons.1 h with h | h
    · subst h; simp only [rawSizeList]; omega
    · have := ih h; simp only [rawSizeList]; omega

theorem rawSize_lt_of_mem_strictDesc {x r : Raw} (h : x ∈ strictDescRaw r) :
    rawSize x < rawSize r := by
  simp only [strictDescRaw, List.mem_flatMap] at h
  obtain ⟨c, hc, hx⟩ := h
  have h1 := rawSize_le_of_mem_allRawNodes c x hx
  cases r with
  | mk p t o ch s =>
    cases ch with
    | none => simp [Raw.childList] at hc
    | some cs =>
      simp only [Raw.childList] at hc
      have h2 := rawSize_le_of_mem cs c hc
      simp only [rawSize]
      omega

theorem lookup_mem : ∀ {s : Store} {n : Nat} {r : NodeRec},
    List.lookup n s = some r → (n, r) ∈ s := by
  intro s
  induction s with
  | nil => intro n r h; simp at h
  | cons e rest ih =>
    intro n r h
    obtain ⟨k, v⟩ := e
    by_cases hk : n = k
    · subst hk
      simp [List.lookup_cons] at h
      simp [h]
    · have hb : (n == k) = false := by simp [hk]
      rw [List.lookup_cons, hb] at h
      exact List.mem_cons_of_mem _ (ih h)

theorem lookup_of_mem_storeIds : ∀ {s : Store} {n : Nat},
    n ∈ storeIds s → ∃ r, List.lookup n s = some r := by
  intro s
  induction s with
  | nil => intro n h; simp [storeIds] at h
  | cons e rest ih =>
    intro n h
    obtain ⟨k, v⟩ := e
    by_cases hk : n = k
    · subst hk
      exact ⟨v, by simp [List.lookup_cons]⟩
    · have hb : (n == k) = false := by simp [hk]
      simp only [storeIds, List.map_cons, List.mem_cons] at h
      rcases h with h | h
      · exact absurd h hk
      · obtain ⟨r, hr⟩ := ih h
        exact ⟨r, by rw [List.lookup_cons, hb]; exact hr⟩

theorem closed_childIds {s : Store} (hc : ClosedStore s) {n c : Nat}
    (h : c ∈ childIdsOf s n) : c ∈ storeIds s := by
  unfold childIdsOf at h
  cases hl : List.lookup n s with
  | none => rw [hl] at h; simp at h
  | some r => rw [hl] at h; exact hc (n, r) (lookup_mem hl) c h

theorem visitRef_cycle (s : Store) (hclosed : ClosedStore s) :
    ∀ (fuel : Nat) (stack : List Nat) (n m : Nat) (l : List Nat),
      WalkTo s n l m →
      ((∃ x ∈ n :: l, x ∈ stack) ∨ ¬ (n :: l).Nodup) →
      n ∈ storeIds s →
      ((storeIds s).toFinset \ stack.toFinset).card < fuel →
      ∃ x, RefFinding.cycleAt x ∈ visitRef s fuel stack n := by
  intro fuel
  induction fuel with
  | zero => intro stack n m l _ _ _ hcard; omega
  | succ fuel ih =>
    intro stack n m l hw hbad hn hcard
    by_cases hstack : n ∈ stack
    · exact ⟨n, by simp [visitRef, hstack]⟩
    · obtain ⟨r, hr⟩ := lookup_of_mem_storeIds hn
      cases hw with
      | refl =>
        exfalso
        rcases hbad with ⟨x, hx, hxs⟩ | hnd
        · simp only [List.mem_singleton] at hx
          subst hx
          exact hstack hxs
        · simp at hnd
      | @step _ c _ l' hcmem hw' =>
        have hbad' : (∃ x ∈ c :: l', x ∈ n :: stack) ∨ ¬ (c :: l').Nodup := by
          rcases hbad with ⟨x, hx, hxs⟩ | hnd
          · rcases List.mem_cons.1 hx with rfl | hx'
            · exact absurd hxs hstack
            · exact Or.inl ⟨x, hx', List.mem_cons_of_mem _ hxs⟩
          · by_cases hmem : n ∈ c :: l'
            · exact Or.inl ⟨n, hmem, List.mem_cons_self _ _⟩
            · right
              intro hnd'
              exact hnd (List.nodup_cons.2 ⟨hmem, hnd'⟩)
        have hcs : c ∈ storeIds s := closed_childIds hclosed hcmem
        have hcard' : ((storeIds s).toFinset \ (n :: stack).toFinset).card < fuel := by
          have hnmem : n ∈ (storeIds s).toFinset \ stack.toFinset := by
            simp [List.mem_toFinset, hn, hstack]
          have hset : (storeIds s).toFinset \ (n :: stack).toFinset =
              ((storeIds s).toFinset \ stack.toFinset).erase n := by
            ext a
            simp only [Finset.mem_sdiff, List.mem_toFinset, List.toFinset_cons,
              Finset.mem_insert, Finset.mem_erase]
            tauto
          rw [hset]
          have hcd := Finset.card_erase_of_mem hnmem
          have hpos : 0 < ((storeIds s).toFinset \ stack.toFinset).card :=
            Finset.card_pos.2 ⟨n, hnmem⟩
          omega
        obtain ⟨x, hx⟩ := ih (n :: stack) c _ l' hw' hbad' hcs hcard'
        refine ⟨x, ?_⟩
        have hfind : RefFinding.cycleAt x ∈
            (childIdsOfRec r).flatMap (visitRef s fuel (n :: stack)) := by
          apply List.mem_flatMap.2
          refine ⟨c, ?_, hx⟩
          unfold childIdsOf at hcmem
          rw [hr] at hcmem
          exact hcmem
        have heq : visitRef s (fuel + 1) stack n =
            recFindings s n r ++ (childIdsOfRec r).flatMap (visitRef s fuel (n :: stack)) := by
          simp [visitRef, hstack, hr]
        rw [heq]
        exact List.mem_append_right _ hfind

theorem walkTo_append {s : Store} {n m k : Nat} {l1 l2 : List Nat}
    (h1 : WalkTo s n l1 m) (h2 : WalkTo s m l2 k) : WalkTo s n (l1 ++ l2) k := by
  induction h1 with
  | refl => simpa using h2
  | step hc _ ih => exact WalkTo.step hc (ih h2)

theorem walkTo_end_mem {s : Store} {n m : Nat} {l : List Nat}
    (h : WalkTo s n l m) (hne : l ≠ []) : m ∈ l := by
  induction h with
  | refl => cases hne rfl
  | @step n' c m' l' hc hw ih =>
    by_cases h0 : l' = []
    · subst h0
      cases hw
      simp
    · exact List.mem_cons_of_mem _ (ih h0)

theorem kt_guides_builds : ∃ n, build KT_GUIDES_MASTER_RAW = Except.ok n := ⟨_, rfl⟩

instance instDecidableClosedStore (s : Store) : Decidable (ClosedStore s) := by
  unfold ClosedStore
  infer_instance

/-- Claim C1: the children list of `CV_GUIDES_MASTER` is missing the
separator between its second and third sibling entries (source lines
13-14), so `build` on the transcribed literal aborts with a
construction-time missing-separator error instead of returning a root
`Node` or silently repairing the literal. -/
theorem claim_C1_build_cv_fails :
    build CV_GUIDES_MASTER_RAW =
      Except.error (BuildError.missingSeparator "keras_cv/") := rfl

/-- Claim C2: for every tree (`traverse root = traverseAux root 0`) and
every depth, the traversal contains each node value exactly as often as it
occurs in the tree (every node exactly once), begins with the root's own
pair (a parent strictly precedes everything in its subtree, in particular
each of its children), and continues with the children's traversals
concatenated in stored order at depth one greater (depth-first
pre-order). -/
theorem claim_C2_traverse_preorder (root : Node) (d : Nat) :
    (∀ m : Node, ((traverseAux root d).map Prod.fst).count m = occCount m root) ∧
    (traverseAux root d).head? = some (root, d) ∧
    (traverseAux root d).tail =
      (Node.childList root).flatMap (fun c => traverseAux c (d + 1)) := by
  refine ⟨fun m => count_fst_traverseAux m root d, ?_, ?_⟩
  · rw [traverseAux_head_tail root d]
    rfl
  · rw [traverseAux_head_tail root d]
    exact traverseList_eq_flatMap _ _

/-- Claim C3: on every well-formed tree — every node with non-empty `path`
and `title`, no present-but-empty `children`, distinct sibling paths
(acyclicity being automatic for inductive trees) — `validate` returns the
empty finding list; and on every tree each traversed node's findings are
contained in the result, so one pass collects all violations rather than
stopping at the first. -/
theorem claim_C3_validate_wellFormed (root : Node) :
    (wellFormedB root = true → validate root = []) ∧
    (∀ x ∈ traverse root, nodeFindings x.1 ⊆ validate root) := by
  constructor
  · intro h
    simp only [wellFormedB, List.all_eq_true] at h
    rw [validate, List.flatMap_eq_nil_iff]
    intro x hx
    exact nodeFindings_eq_nil_of_localOk (h x hx)
  · intro x hx f hf
    exact List.mem_flatMap.2 ⟨x, hx, hf⟩

theorem claim_C3_witness :
    wellFormedB EX_ROOT = true ∧ validate EX_ROOT = [] ∧
      nodeFindings EX_ROOT ⊆ validate EX_ROOT :=
  ⟨by decide, (claim_C3_validate_wellFormed EX_ROOT).1 (by decide),
    (claim_C3_validate_wellFormed EX_ROOT).2 (EX_ROOT, 0) (by decide)⟩

/-- Claim C4: in the reference-sharing model, on every closed store whose
root can reach a node that appears as its own descendant, `validateRef` —
a total function, so it terminates on the cyclic structure — reports a
cycle finding. -/
theorem claim_C4_cycle_detected (s : Store) (root : Nat)
    (hclosed : ClosedStore s) (hroot : root ∈ storeIds s)
    (hcyc : ∃ x, ReachableId s root x ∧ SelfDescendant s x) :
    ∃ x, RefFinding.cycleAt x ∈ validateRef s root := by
  obtain ⟨x, ⟨l1, hw1⟩, ⟨l2, hl2, hw2⟩⟩ := hcyc
  have hw : WalkTo s root (l1 ++ l2) x := walkTo_append hw1 hw2
  have hbad : ¬ (root :: (l1 ++ l2)).Nodup := by
    have hx2 : x ∈ l2 := walkTo_end_mem hw2 hl2
    by_cases h0 : l1 = []
    · subst h0
      cases hw1
      intro hnd
      exact (List.nodup_cons.1 hnd).1 (by simpa using hx2)
    · have hx1 : x ∈ l1 := walkTo_end_mem hw1 h0
      intro hnd
      have h2 := (List.nodup_cons.1 hnd).2
      rw [List.nodup_append] at h2
      exact h2.2.2 hx1 hx2
  have hlen : ((storeIds s).toFinset \ ([] : List Nat).toFinset).card < s.length + 1 := by
    have h1 : (storeIds s).toFinset.card ≤ (storeIds s).length := List.toFinset_card_le _
    have h2 : (storeIds s).length = s.length := by simp [storeIds]
    simp only [List.toFinset_nil, Finset.sdiff_empty]
    omega
  exact visitRef_cycle s hclosed (s.length + 1) [] root x (l1 ++ l2) hw
    (Or.inr hbad) hroot hlen

theorem claim_C4_witness :
    ∃ x, RefFinding.cycleAt x ∈ validateRef cyclicStore 0 :=
  claim_C4_cycle_detected cyclicStore 0 (by decide) (by decide)
    ⟨0, ⟨[], WalkTo.refl 0⟩, ⟨[0], by simp, WalkTo.step (by decide) (WalkTo.refl 0)⟩⟩

/-- Claim C5: whenever exactly one traversed node has exactly two children
sharing the sibling path `p` and no node has more than two, `validate`
reports exactly one duplicate-path finding for `p`, and that finding's
severity is warning, not fatal. -/
theorem claim_C5_duplicate_path (root : Node) (p : String)
    (h1 : (traverse root).countP (fun x => decide ((childPaths x.1).count p = 2)) = 1)
    (h2 : ∀ x ∈ traverse root, (childPaths x.1).count p ≤ 2) :
    (validate root).count (Finding.duplicatePath p) = 1 ∧
      (Finding.duplicatePath p).severity = Severity.warning := by
  refine ⟨?_, rfl⟩
  rw [count_validate_duplicate, ← h1]
  apply List.countP_congr
  intro x hx
  have hle := h2 x hx
  simp only [decide_eq_true_eq]
  omega

theorem claim_C5_witness :
    (validate dupSpecimen).count (Finding.duplicatePath "foo") = 1 ∧
      (Finding.duplicatePath "foo").severity = Severity.warning :=
  claim_C5_duplicate_path dupSpecimen "foo" (by decide) (by decide)

/-- Claim C6: on the spec's concrete example root, `traverse` yields
exactly the four pairs (guides/ root, depth 0), (functional_api, 1),
(keras_tuner/, 1), (getting_started, 2), in that order. -/
theorem claim_C6_concrete_traverse :
    traverse EX_ROOT =
      [(EX_ROOT, 0), (EX_FUNCTIONAL_API, 1), (EX_KERAS_TUNER, 1),
        (EX_GETTING_STARTED, 2)] := rfl

/-- Claim C7: every node literal of the source data — in `GUIDES_MASTER`,
`KT_GUIDES_MASTER` and `CV_GUIDES_MASTER`, at every nesting depth — has a
non-empty `path` and a non-empty `title`. -/
theorem claim_C7_paths_titles_nonempty :
    allSrcNodes.all (fun r => !(r.path == "") && !(r.title == "")) = true := rfl

/-- Claim C8: the navigation tree rooted at `GUIDES_MASTER` is finite (25
node literals in total) and acyclic — no node literal of it occurs among
its own strict descendants, the embedded `KT_GUIDES_MASTER` and
`CV_GUIDES_MASTER` subtrees included — and every `children` field present
in it is a non-empty sequence. -/
theorem claim_C8_finite_acyclic :
    (∀ r ∈ allRawNodes GUIDES_MASTER_RAW, r ∉ strictDescRaw r) ∧
    (allRawNodes GUIDES_MASTER_RAW).length = 25 ∧
    (allRawNodes GUIDES_MASTER_RAW).all
        (fun r => match r.children with | some [] => false | _ => true) = true := by
  refine ⟨?_, rfl, rfl⟩
  intro r _ hmem
  exact absurd (rawSize_lt_of_mem_strictDesc hmem) (Nat.lt_irrefl _)

theorem claim_C8_witness :
    GUIDES_MASTER_RAW ∉ strictDescRaw GUIDES_MASTER_RAW ∧
      (allRawNodes GUIDES_MASTER_RAW).length = 25 :=
  ⟨claim_C8_finite_acyclic.1 GUIDES_MASTER_RAW (List.mem_cons_self _ _),
    claim_C8_finite_acyclic.2.1⟩

/-- Claim C9: in the source data a node has a `toc` field exactly when it
has a `children` field, `toc` is `True` whenever present, and exactly the
three section roots `guides/`, `keras_tuner/`, `keras_cv/` carry the
pair. -/
theorem claim_C9_toc_iff_children :
    allSrcNodes.all
        (fun r => (r.toc.isSome == r.children.isSome) &&
          (match r.toc with | some b => b | none => true)) = true ∧
    ((allSrcNodes.filter (fun r => r.toc.isSome)).map Raw.path).dedup =
      ["guides/", "keras_tuner/", "keras_cv/"] :=
  ⟨rfl, by decide⟩

/-- Claim C10: for every node literal of the source data, the `path`
string ends with `/` exactly when the node has children: the three section
roots use trailing-slash paths and no leaf path ends with a slash. -/
theorem claim_C10_trailing_slash :
    allSrcNodes.all (fun r => endsWithSlash r.path == r.children.isSome) = true := by
  decide
